import Mathlib

/-!
Verification of the inventory store in `src/inventory_system.py`.

The module keeps one piece of state, the global dict
`stock_data : Dict[str, int]`, and exposes `add_item`, `remove_item`,
`get_qty`, `check_low_items`, `load_data`, `save_data` and `print_data`.

The embedding below models:
  * the dict as an association list `List (String × Int)` in insertion
    order (Python 3 dicts preserve insertion order; updating an existing
    key keeps its position, a new key is appended at the end);
  * dynamically typed Python arguments in two layers: the inductive
    `PyVal` (strings, integers, `None`, string lists for the `logs`
    buffer) is the integer fragment, over which the claims about
    integer-valued mappings are stated; the extended `PyValX`/`PyNum`
    model further down adds Python floats — which pass the
    `isinstance(qty, (int, float))` check at line 29 and can be stored
    in the mapping — modelled as the exact rational values of the
    IEEE-754 doubles;
  * the JSON value parsed from a file as `JsonVal`, and the three
    possible outcomes of opening/parsing a file as `FileRead`;
  * each operation as a pure function on the state; operations whose
    Python body can let an exception escape to the caller additionally
    get an `..._exc` variant returning `Except String _`, where
    `.error` marks an uncaught Python exception.
-/

/-- A dynamically typed Python argument value of the integer fragment:
strings, ints, `None`, and lists of strings (the `logs` audit buffer of
`add_item`). Floats are in the extended type `PyValX` below; theorems
over `PyVal` therefore range over the integer-typed calls only. -/
inductive PyVal where
  | VStr : String → PyVal
  | VInt : Int → PyVal
  | VNone : PyVal
  | VList : List String → PyVal
deriving DecidableEq, Repr

/-- The in-memory inventory mapping `stock_data`, as an association list
in insertion order. A real Python dict never holds a duplicate key; where
a theorem needs this, it takes `(st.map Prod.fst).Nodup` as a hypothesis. -/
abbrev Inventory := List (String × Int)

/-- Lookup of the first binding of a key: `stock_data.get(k)` /
`stock_data[k]` / `k in stock_data`. -/
def dictGet (st : Inventory) (k : String) : Option Int :=
  match st with
  | [] => none
  | (k', v') :: rest => if k' = k then some v' else dictGet rest k

/-- Assignment `stock_data[k] = v`: replaces the first binding of `k`
in place, or appends a new binding at the end (Python dict update keeps
the position of an existing key). -/
def dictSet (st : Inventory) (k : String) (v : Int) : Inventory :=
  match st with
  | [] => [(k, v)]
  | (k', v') :: rest => if k' = k then (k, v) :: rest else (k', v') :: dictSet rest k v

/-- Deletion `del stock_data[k]`: removes the first binding of `k`. -/
def dictDel (st : Inventory) (k : String) : Inventory :=
  match st with
  | [] => []
  | (k', v') :: rest => if k' = k then rest else (k', v') :: dictDel rest k

/-- The check `isinstance(item, str)`. -/
def isStr : PyVal → Bool
  | .VStr _ => true
  | _ => false

/-- The check `isinstance(qty, (int, float))` restricted to the integer
fragment `PyVal` (which has no float constructor); the full check,
accepting floats as the source does, is `isNumX` on `PyValX` below. -/
def isNum : PyVal → Bool
  | .VInt _ => true
  | _ => false

/-- Python `int(x)` on an argument value of the integer fragment:
identity on ints, string parsing on strings (Python additionally strips
whitespace and accepts underscores and a leading plus, which are not
modelled), and a `TypeError` (here `none`) on `None` and lists; float
truncation is in `intCoerceX` below. -/
def intCoerce : PyVal → Option Int
  | .VInt n => some n
  | .VStr s => s.toInt?
  | _ => none

/-- Source lines 25-42. `add_item(item, qty)`: if `item` is not a string
or `qty` is not numeric, log and return without mutating; otherwise
`stock_data[item] = stock_data.get(item, 0) + qty`. (The audit line
appended to `logs` and the log file are not part of the mapping state.) -/
def add_item (st : Inventory) (item : PyVal) (qty : PyVal) : Inventory :=
  match item, qty with
  | .VStr s, .VInt n => dictSet st s ((dictGet st s).getD 0 + n)
  | _, _ => st

/-- Source lines 45-65. `remove_item(item, qty)`: reject a non-string
`item`; coerce `qty` with `int(qty)`, rejecting on `TypeError`/`ValueError`;
if `item` is absent, log and no-op; otherwise `stock_data[item] -= qty_int`
and, if the result is `<= 0`, `del stock_data[item]`. (The inner
`except KeyError` can never fire in single-threaded execution.) -/
def remove_item (st : Inventory) (item : PyVal) (qty : PyVal) : Inventory :=
  match item with
  | .VStr s =>
    match intCoerce qty with
    | some n =>
      match dictGet st s with
      | some v =>
        if v - n ≤ 0 then dictDel (dictSet st s (v - n)) s
        else dictSet st s (v - n)
      | none => st
    | none => st
  | _ => st

/-- Source lines 68-73. `get_qty(item)`: `0` for a non-string `item`,
otherwise `int(stock_data.get(item, 0))` (the `int()` coercion is the
identity here since modelled stored values are integers). -/
def get_qty (st : Inventory) (item : PyVal) : Int :=
  match item with
  | .VStr s => (dictGet st s).getD 0
  | _ => 0

/-- A JSON value as produced by `json.load` (JSON numbers restricted to
integers; floats not modelled). -/
inductive JsonVal where
  | jStr : String → JsonVal
  | jInt : Int → JsonVal
  | jBool : Bool → JsonVal
  | jNull : JsonVal
  | jArr : List JsonVal → JsonVal
  | jObj : List (String × JsonVal) → JsonVal

/-- Python `int(v)` on a parsed JSON value `v`: identity on ints, `1`/`0`
on booleans, string parsing on strings (with the same caveats as
`intCoerce`), and `TypeError` (here `none`) on `null`, arrays and
objects. -/
def jsonToInt : JsonVal → Option Int
  | .jInt n => some n
  | .jBool b => some (if b then 1 else 0)
  | .jStr s => s.toInt?
  | _ => none

/-- The outcome of `path.exists()` / `path.open` / `json.load` on the
file passed to `load_data`: the path does not exist, opening or parsing
fails (`OSError` / `json.JSONDecodeError`), or parsing yields a JSON
value. -/
inductive FileRead where
  | missing : FileRead
  | readError : FileRead
  | parsed : JsonVal → FileRead

/-- One step of the load loop, source lines 96-100: `stock_data[str(k)] = int(v)`
when `int(v)` succeeds, skip the key otherwise (JSON object keys are
already strings, so `str(k) = k`). -/
def loadStep (st : Inventory) (kv : String × JsonVal) : Inventory :=
  match jsonToInt kv.2 with
  | some n => dictSet st kv.1 n
  | none => st

/-- Source lines 76-102. `load_data(file)`: a missing file clears the
mapping; a read/parse failure clears the mapping; otherwise the mapping
is cleared and, when the parsed value is a dict, repopulated key by key,
skipping values `int()` rejects; a non-dict value leaves it empty. -/
def load_data (_st : Inventory) (f : FileRead) : Inventory :=
  match f with
  | .missing => []
  | .readError => []
  | .parsed data =>
    match data with
    | .jObj fields => fields.foldl loadStep []
    | _ => []

/-- Source lines 105-113. The JSON value `json.dump` serializes for the
current mapping (a write failure is caught and logged and in either case
the mapping itself is untouched). -/
def save_data (st : Inventory) : JsonVal :=
  .jObj (st.map (fun p => (p.1, JsonVal.jInt p.2)))

/-- Whether an `Except` result is a normal return. -/
def excOk : Except String α → Bool
  | .ok _ => true
  | .error _ => false

/-- Exception behaviour of `add_item(item, qty, logs)`: validation
failures return early (before `logs` is touched), so they never raise;
on the mutating path, `logs.append(...)` at line 34 raises
`AttributeError` — after the mapping was already mutated — whenever the
caller passed a `logs` that is neither `None` (replaced by a fresh list)
nor a list. -/
def add_item_exc (st : Inventory) (item qty logs : PyVal) : Except String Inventory :=
  match item, qty with
  | .VStr _, .VInt _ =>
    match logs with
    | .VNone => .ok (add_item st item qty)
    | .VList _ => .ok (add_item st item qty)
    | _ => .error "AttributeError: object has no attribute append"
  | _, _ => .ok st

/-- Exception behaviour of `get_qty`: no fallible call outside the
type check, always returns normally. -/
def get_qty_exc (st : Inventory) (item : PyVal) : Except String Int :=
  .ok (get_qty st item)

/-- A call to one of the operations that touch (or merely read) the
mapping, with its arguments; `fSave` records whether the write succeeds,
`fLoad` records the file outcome. -/
inductive OpF where
  | fAdd : PyVal → PyVal → PyVal → OpF
  | fRemove : PyVal → PyVal → OpF
  | fGet : PyVal → OpF
  | fLow : PyVal → OpF
  | fLoad : FileRead → OpF
  | fSave : Bool → OpF
  | fPrint : OpF

/-- The effect of one operation on the mapping: `add_item`, `remove_item`
and `load_data` write it as defined above; `get_qty`, `check_low_items`,
`save_data` and `print_data` contain no assignment to `stock_data` and
leave it as it is. -/
def stepState (st : Inventory) : OpF → Inventory
  | .fAdd item qty _ => add_item st item qty
  | .fRemove item qty => remove_item st item qty
  | .fGet _ => st
  | .fLow _ => st
  | .fLoad f => load_data st f
  | .fSave _ => st
  | .fPrint => st

/-- Running a sequence of operations from a starting state. -/
def runOps (st : Inventory) (ops : List OpF) : Inventory :=
  ops.foldl stepState st

/-- The invariant of the spec's data model: every key present in the
mapping has quantity strictly greater than zero. -/
def allPos (st : Inventory) : Prop :=
  ∀ p ∈ st, 0 < p.2

instance (st : Inventory) : Decidable (allPos st) := by
  unfold allPos; infer_instance

/-- The side condition under which an operation preserves `allPos`: an
`add_item` call with an integer quantity must add a positive quantity,
and a `load_data` call must read a file whose coercible values are all
positive; every other call (including rejected `add_item` calls and all
`remove_item` calls) needs nothing. -/
def opOK : OpF → Bool
  | .fAdd _ qty _ =>
    match qty with
    | .VInt n => decide (0 < n)
    | _ => true
  | .fLoad (.parsed (.jObj fields)) =>
    fields.all (fun kv =>
      match jsonToInt kv.2 with
      | some n => decide (0 < n)
      | none => true)
  | _ => true

/-! ### Extended model with Python floats

The check `isinstance(qty, (int, float))` at source line 29 accepts
floats, and a float `qty` both passes validation and is stored, so the
real mapping can hold float values. The extended model below includes
them: a Python float is modelled by the exact rational value of the
IEEE-754 double it represents. Rounding and overflow of float
arithmetic, and non-finite floats (`nan`, `inf`), are not modelled; the
facts proved in this model — signs of sums and differences of
like-signed values, and `int()` truncation toward zero of exactly
represented values — agree with IEEE-754 arithmetic. -/

/-- A Python number stored in the dict: an int, or a float carrying its
exact rational value. -/
inductive PyNum where
  | pInt : Int → PyNum
  | pFloat : ℚ → PyNum
deriving DecidableEq, Repr

/-- Python `int()` truncation of a float toward zero (`int()` of a
finite double is the exact mathematical truncation of its value):
`Int.div` is T-division, which truncates toward zero. -/
def truncQ (q : ℚ) : Int := q.num.tdiv (q.den : Int)

/-- A dynamically typed argument value in the extended model: the
constructors of `PyVal` plus floats. -/
inductive PyValX where
  | XStr : String → PyValX
  | XInt : Int → PyValX
  | XFloat : ℚ → PyValX
  | XNone : PyValX
  | XList : List String → PyValX
deriving DecidableEq, Repr

/-- The check `isinstance(qty, (int, float))` at line 29, in full: ints
and floats pass, everything else fails. -/
def isNumX : PyValX → Bool
  | .XInt _ => true
  | .XFloat _ => true
  | _ => false

/-- The extended mapping state: stored values may be ints or floats. -/
abbrev InventoryX := List (String × PyNum)

/-- Lookup of the first binding of a key (value type generic, used at
`PyNum`): `stock_data.get(k)` / `stock_data[k]` / `k in stock_data`. -/
def dictGetX {α : Type} (st : List (String × α)) (k : String) : Option α :=
  match st with
  | [] => none
  | (k', v') :: rest => if k' = k then some v' else dictGetX rest k

/-- Assignment `stock_data[k] = v` (generic value type): replaces the
first binding in place or appends a new binding at the end. -/
def dictSetX {α : Type} (st : List (String × α)) (k : String) (v : α) : List (String × α) :=
  match st with
  | [] => [(k, v)]
  | (k', v') :: rest => if k' = k then (k, v) :: rest else (k', v') :: dictSetX rest k v

/-- Deletion `del stock_data[k]` (generic value type). -/
def dictDelX {α : Type} (st : List (String × α)) (k : String) : List (String × α) :=
  match st with
  | [] => []
  | (k', v') :: rest => if k' = k then rest else (k', v') :: dictDelX rest k

/-- Python `+` on numbers, as in line 33's
`stock_data.get(item, 0) + qty`: int + int is an int, any float operand
makes the result a float. -/
def pyAdd : PyNum → PyNum → PyNum
  | .pInt a, .pInt b => .pInt (a + b)
  | .pInt a, .pFloat b => .pFloat ((a : ℚ) + b)
  | .pFloat a, .pInt b => .pFloat (a + (b : ℚ))
  | .pFloat a, .pFloat b => .pFloat (a + b)

/-- Python `-` of a stored number and an int, as in line 58's
`stock_data[item] -= qty_int`. -/
def pySub : PyNum → Int → PyNum
  | .pInt a, n => .pInt (a - n)
  | .pFloat a, n => .pFloat (a - (n : ℚ))

/-- The check `stock_data[item] <= 0` at line 59 on a stored number. -/
def pyLeZero : PyNum → Bool
  | .pInt a => decide (a ≤ 0)
  | .pFloat a => decide (a ≤ 0)

/-- Strict positivity of a stored number. -/
def pyPos : PyNum → Prop
  | .pInt a => 0 < a
  | .pFloat a => 0 < a

instance (p : PyNum) : Decidable (pyPos p) :=
  match p with
  | .pInt a => inferInstanceAs (Decidable (0 < a))
  | .pFloat a => inferInstanceAs (Decidable (0 < a))

/-- Python `int(x)` in the extended model: identity on ints, truncation
toward zero on floats, string parsing on strings, `TypeError` (`none`)
otherwise. -/
def intCoerceX : PyValX → Option Int
  | .XInt n => some n
  | .XFloat q => some (truncQ q)
  | .XStr s => s.toInt?
  | _ => none

/-- Source lines 25-42 in the extended model. `add_item(item, qty)`:
validation accepts a string `item` with an int or float `qty`; on
success `stock_data[item] = stock_data.get(item, 0) + qty`, which
stores a float whenever `qty` is one. -/
def add_itemX (st : InventoryX) (item qty : PyValX) : InventoryX :=
  match item, qty with
  | .XStr s, .XInt n => dictSetX st s (pyAdd ((dictGetX st s).getD (.pInt 0)) (.pInt n))
  | .XStr s, .XFloat q => dictSetX st s (pyAdd ((dictGetX st s).getD (.pInt 0)) (.pFloat q))
  | _, _ => st

/-- Source lines 45-65 in the extended model: `int(qty)` truncates a
float `qty`; the stored value (int or float) is decremented and the key
deleted when the result is `<= 0`. -/
def remove_itemX (st : InventoryX) (item qty : PyValX) : InventoryX :=
  match item with
  | .XStr s =>
    match intCoerceX qty with
    | some n =>
      match dictGetX st s with
      | some v =>
        if pyLeZero (pySub v n) then dictDelX (dictSetX st s (pySub v n)) s
        else dictSetX st s (pySub v n)
      | none => st
    | none => st
  | _ => st

/-- Source lines 68-73 in the extended model:
`int(stock_data.get(item, 0))` truncates a stored float toward zero. -/
def get_qtyX (st : InventoryX) (item : PyValX) : Int :=
  match item with
  | .XStr s =>
    match dictGetX st s with
    | some (.pInt n) => n
    | some (.pFloat q) => truncQ q
    | none => 0
  | _ => 0

/-- Embedding of an integer-valued mapping state into the extended
state. -/
def toX (st : Inventory) : InventoryX :=
  st.map (fun p => (p.1, PyNum.pInt p.2))

/-- Source lines 76-102 in the extended model: every value `load_data`
stores comes out of `int(v)` and is therefore a Python int, so the
rebuilt extended state is the embedding of the integer-model load. -/
def load_dataX (_st : InventoryX) (f : FileRead) : InventoryX :=
  toX (load_data [] f)

/-- A call to one of the three mutating operations, with extended-model
arguments (the read-only operations never change the state; see
`stepState`). -/
inductive OpFX where
  | gAdd : PyValX → PyValX → OpFX
  | gRemove : PyValX → PyValX → OpFX
  | gLoad : FileRead → OpFX

/-- The effect of one mutating operation on the extended state. -/
def stepStateX (st : InventoryX) : OpFX → InventoryX
  | .gAdd item qty => add_itemX st item qty
  | .gRemove item qty => remove_itemX st item qty
  | .gLoad f => load_dataX st f

/-- Running a sequence of mutating operations from a starting extended
state. -/
def runOpsX (st : InventoryX) (ops : List OpFX) : InventoryX :=
  ops.foldl stepStateX st

/-- The invariant of the spec data model on the extended state: every
key present in the mapping has a strictly positive quantity. -/
def allPosX (st : InventoryX) : Prop :=
  ∀ p ∈ st, pyPos p.2

instance (st : InventoryX) : Decidable (allPosX st) := by
  unfold allPosX; infer_instance

/-- The side condition under which an operation preserves `allPosX`: an
`add_item` call with a numeric `qty` (int or float — the values that
pass validation) must add a strictly positive quantity, and a
`load_data` call must read a file whose integer-coercible values are
all positive; `remove_item` calls and rejected calls need nothing. -/
def opOKX : OpFX → Bool
  | .gAdd _ qty =>
    match qty with
    | .XInt n => decide (0 < n)
    | .XFloat q => decide (0 < q)
    | _ => true
  | .gRemove _ _ => true
  | .gLoad f => opOK (.fLoad f)

/-! ### Lemmas about the dict operations -/

theorem dictGet_dictSet_self (st : Inventory) (k : String) (v : Int) :
    dictGet (dictSet st k v) k = some v := by
  induction st with
  | nil => simp [dictSet, dictGet]
  | cons hd tl ih =>
    obtain ⟨a, b⟩ := hd
    by_cases ha : a = k <;> simp [dictSet, dictGet, ha, ih]

theorem dictGet_dictSet_ne (st : Inventory) (k k' : String) (v : Int) (h : k' ≠ k) :
    dictGet (dictSet st k v) k' = dictGet st k' := by
  have hk : k ≠ k' := Ne.symm h
  induction st with
  | nil => simp [dictSet, dictGet, hk]
  | cons hd tl ih =>
    obtain ⟨a, b⟩ := hd
    by_cases ha : a = k
    · subst ha
      simp [dictSet, dictGet, hk]
    · simp [dictSet, dictGet, ha, ih]

theorem dictGet_dictDel_ne (st : Inventory) (k k' : String) (h : k' ≠ k) :
    dictGet (dictDel st k) k' = dictGet st k' := by
  have hk : k ≠ k' := Ne.symm h
  induction st with
  | nil => simp [dictDel]
  | cons hd tl ih =>
    obtain ⟨a, b⟩ := hd
    by_cases ha : a = k
    · subst ha
      simp [dictDel, dictGet, hk]
    · simp [dictDel, dictGet, ha, ih]

theorem dictGet_eq_none_of_not_mem (st : Inventory) (k : String)
    (h : k ∉ st.map Prod.fst) : dictGet st k = none := by
  induction st with
  | nil => simp [dictGet]
  | cons hd tl ih =>
    obtain ⟨a, b⟩ := hd
    simp only [List.map_cons, List.mem_cons] at h
    push_neg at h
    have ha : a ≠ k := Ne.symm h.1
    simp [dictGet, ha, ih h.2]

theorem mem_dictSet (st : Inventory) (k : String) (v : Int) (p : String × Int)
    (hp : p ∈ dictSet st k v) : p ∈ st ∨ p = (k, v) := by
  induction st with
  | nil =>
    simp only [dictSet, List.mem_singleton] at hp
    exact Or.inr hp
  | cons hd tl ih =>
    obtain ⟨a, b⟩ := hd
    by_cases ha : a = k
    · simp only [dictSet, if_pos ha] at hp
      rcases List.mem_cons.mp hp with h1 | h1
      · exact Or.inr h1
      · exact Or.inl (List.mem_cons_of_mem _ h1)
    · simp only [dictSet, if_neg ha] at hp
      rcases List.mem_cons.mp hp with h1 | h1
      · exact Or.inl (h1 ▸ List.mem_cons_self _ _)
      · rcases ih h1 with h2 | h2
        · exact Or.inl (List.mem_cons_of_mem _ h2)
        · exact Or.inr h2

theorem mem_dictDel (st : Inventory) (k : String) (p : String × Int)
    (hp : p ∈ dictDel st k) : p ∈ st := by
  induction st with
  | nil =>
    simp [dictDel] at hp
  | cons hd tl ih =>
    obtain ⟨a, b⟩ := hd
    by_cases ha : a = k
    · simp only [dictDel, if_pos ha] at hp
      exact List.mem_cons_of_mem _ hp
    · simp only [dictDel, if_neg ha] at hp
      rcases List.mem_cons.mp hp with h1 | h1
      · exact h1 ▸ List.mem_cons_self _ _
      · exact List.mem_cons_of_mem _ (ih h1)

theorem mem_dictDel_dictSet (st : Inventory) (k : String) (v : Int) (p : String × Int)
    (hp : p ∈ dictDel (dictSet st k v) k) : p ∈ st := by
  induction st with
  | nil =>
    simp [dictSet, dictDel] at hp
  | cons hd tl ih =>
    obtain ⟨a, b⟩ := hd
    by_cases ha : a = k
    · simp only [dictSet, if_pos ha, dictDel, if_pos rfl] at hp
      exact List.mem_cons_of_mem _ hp
    · simp only [dictSet, if_neg ha, dictDel, if_neg ha] at hp
      rcases List.mem_cons.mp hp with h1 | h1
      · exact h1 ▸ List.mem_cons_self _ _
      · exact List.mem_cons_of_mem _ (ih h1)

theorem keys_dictSet_mem (st : Inventory) (k a : String) (v : Int)
    (ha : a ∈ (dictSet st k v).map Prod.fst) : a ∈ st.map Prod.fst ∨ a = k := by
  simp only [List.mem_map] at ha
  obtain ⟨p, hp, he⟩ := ha
  rcases mem_dictSet st k v p hp with h | h
  · exact Or.inl (List.mem_map.mpr ⟨p, h, he⟩)
  · subst h
    exact Or.inr he.symm

theorem keys_nodup_dictSet (st : Inventory) (k : String) (v : Int)
    (h : (st.map Prod.fst).Nodup) : ((dictSet st k v).map Prod.fst).Nodup := by
  induction st with
  | nil => simp [dictSet]
  | cons hd tl ih =>
    obtain ⟨a, b⟩ := hd
    simp only [List.map_cons, List.nodup_cons] at h
    by_cases ha : a = k
    · subst ha
      simpa [dictSet] using h
    · simp only [dictSet, if_neg ha, List.map_cons, List.nodup_cons]
      refine ⟨fun hmem => ?_, ih h.2⟩
      rcases keys_dictSet_mem tl k a v hmem with h' | h'
      · exact h.1 h'
      · exact ha h'

theorem dictGet_dictDel_self (st : Inventory) (k : String)
    (h : (st.map Prod.fst).Nodup) : dictGet (dictDel st k) k = none := by
  induction st with
  | nil => simp [dictDel, dictGet]
  | cons hd tl ih =>
    obtain ⟨a, b⟩ := hd
    simp only [List.map_cons, List.nodup_cons] at h
    by_cases ha : a = k
    · subst ha
      simp only [dictDel, if_pos rfl]
      exact dictGet_eq_none_of_not_mem tl a h.1
    · simp [dictDel, dictGet, ha, ih h.2]

theorem dictSet_not_mem_append (st : Inventory) (k : String) (v : Int)
    (h : k ∉ st.map Prod.fst) : dictSet st k v = st ++ [(k, v)] := by
  induction st with
  | nil => simp [dictSet]
  | cons hd tl ih =>
    obtain ⟨a, b⟩ := hd
    simp only [List.map_cons, List.mem_cons] at h
    push_neg at h
    have ha : a ≠ k := Ne.symm h.1
    simp [dictSet, ha, ih h.2]

theorem dictGet_mem (st : Inventory) (k : String) (v : Int)
    (h : dictGet st k = some v) : (k, v) ∈ st := by
  induction st with
  | nil => simp [dictGet] at h
  | cons hd tl ih =>
    obtain ⟨a, b⟩ := hd
    by_cases ha : a = k
    · subst ha
      simp only [dictGet, if_true] at h
      injection h with h
      subst h
      exact List.mem_cons_self _ _
    · simp only [dictGet, if_neg ha] at h
      exact List.mem_cons_of_mem _ (ih h)

/-! ### Preservation of the positivity invariant -/

theorem allPos_dictSet (st : Inventory) (k : String) (v : Int)
    (h : allPos st) (hv : 0 < v) : allPos (dictSet st k v) := by
  intro p hp
  rcases mem_dictSet st k v p hp with h1 | h1
  · exact h p h1
  · rw [h1]
    exact hv

theorem allPos_add_item (st : Inventory) (item qty logs : PyVal)
    (h : allPos st) (hop : opOK (.fAdd item qty logs) = true) :
    allPos (add_item st item qty) := by
  match item, qty with
  | .VStr s, .VInt n =>
    have hn : 0 < n := by
      simpa [opOK] using hop
    simp only [add_item]
    rcases hg : dictGet st s with _ | v
    · simp only [hg, Option.getD_none]
      exact allPos_dictSet st s (0 + n) h (by omega)
    · have hv : 0 < v := h (s, v) (dictGet_mem st s v hg)
      simp only [hg, Option.getD_some]
      exact allPos_dictSet st s (v + n) h (by omega)
  | .VStr _, .VStr _ => simpa [add_item] using h
  | .VStr _, .VNone => simpa [add_item] using h
  | .VStr _, .VList _ => simpa [add_item] using h
  | .VInt _, _ => simpa [add_item] using h
  | .VNone, _ => simpa [add_item] using h
  | .VList _, _ => simpa [add_item] using h

theorem allPos_remove_item (st : Inventory) (item qty : PyVal)
    (h : allPos st) : allPos (remove_item st item qty) := by
  match item with
  | .VStr s =>
    simp only [remove_item]
    rcases intCoerce qty with _ | n
    · exact h
    · rcases hg : dictGet st s with _ | v
      · exact h
      · by_cases hle : v - n ≤ 0
        · simp only [if_pos hle]
          intro p hp
          exact h p (mem_dictDel_dictSet st s (v - n) p hp)
        · simp only [if_neg hle]
          exact allPos_dictSet st s (v - n) h (by omega)
  | .VInt _ => simpa [remove_item] using h
  | .VNone => simpa [remove_item] using h
  | .VList _ => simpa [remove_item] using h

theorem allPos_foldl_loadStep (fields : List (String × JsonVal)) (acc : Inventory)
    (hacc : allPos acc)
    (hf : ∀ kv ∈ fields, ∀ n, jsonToInt kv.2 = some n → 0 < n) :
    allPos (fields.foldl loadStep acc) := by
  induction fields generalizing acc with
  | nil => simpa using hacc
  | cons kv rest ih =>
    simp only [List.foldl_cons]
    refine ih (loadStep acc kv) ?_ ?_
    · unfold loadStep
      rcases hj : jsonToInt kv.2 with _ | n
      · exact hacc
      · exact allPos_dictSet acc kv.1 n hacc
          (hf kv (List.mem_cons_self _ _) n hj)
    · intro kv' hkv' n hn
      exact hf kv' (List.mem_cons_of_mem _ hkv') n hn

theorem allPos_load_data (st : Inventory) (f : FileRead)
    (hop : opOK (.fLoad f) = true) : allPos (load_data st f) := by
  match f with
  | .missing => intro p hp; simp [load_data] at hp
  | .readError => intro p hp; simp [load_data] at hp
  | .parsed data =>
    match data with
    | .jStr _ => intro p hp; simp [load_data] at hp
    | .jInt _ => intro p hp; simp [load_data] at hp
    | .jBool _ => intro p hp; simp [load_data] at hp
    | .jNull => intro p hp; simp [load_data] at hp
    | .jArr _ => intro p hp; simp [load_data] at hp
    | .jObj fields =>
      simp only [load_data]
      refine allPos_foldl_loadStep fields [] (by intro p hp; simp at hp) ?_
      intro kv hkv n hn
      simp only [opOK, List.all_eq_true] at hop
      have := hop kv hkv
      rw [hn] at this
      exact of_decide_eq_true this

theorem allPos_stepState (st : Inventory) (op : OpF)
    (h : allPos st) (hop : opOK op = true) : allPos (stepState st op) := by
  match op with
  | .fAdd item qty logs => exact allPos_add_item st item qty logs h hop
  | .fRemove item qty => exact allPos_remove_item st item qty h
  | .fGet _ => exact h
  | .fLow _ => exact h
  | .fLoad f => exact allPos_load_data st f hop
  | .fSave _ => exact h
  | .fPrint => exact h

theorem allPos_runOps (st : Inventory) (ops : List OpF)
    (h : allPos st) (hops : ∀ op ∈ ops, opOK op = true) : allPos (runOps st ops) := by
  induction ops generalizing st with
  | nil => simpa [runOps] using h
  | cons op rest ih =>
    simp only [runOps, List.foldl_cons]
    exact ih (stepState st op)
      (allPos_stepState st op h (hops op (List.mem_cons_self _ _)))
      (fun op' hop' => hops op' (List.mem_cons_of_mem _ hop'))

/-! ### Fold lemmas for loading -/

theorem foldl_dictSet_append (ps : List (String × Int)) (acc : Inventory)
    (h : ((acc ++ ps).map Prod.fst).Nodup) :
    ps.foldl (fun a p => dictSet a p.1 p.2) acc = acc ++ ps := by
  induction ps generalizing acc with
  | nil => simp
  | cons p rest ih =>
    obtain ⟨k, v⟩ := p
    have hmap := h
    rw [List.map_append] at hmap
    have hdisj := List.disjoint_of_nodup_append hmap
    have hk : k ∉ acc.map Prod.fst := by
      intro hmem
      exact hdisj hmem (by simp)
    simp only [List.foldl_cons]
    rw [dictSet_not_mem_append acc k v hk]
    have := ih (acc ++ [(k, v)]) (by simpa using h)
    simpa using this

theorem foldl_loadStep_map_jInt (st : List (String × Int)) (acc : Inventory) :
    (st.map (fun p => (p.1, JsonVal.jInt p.2))).foldl loadStep acc
      = st.foldl (fun a p => dictSet a p.1 p.2) acc := by
  induction st generalizing acc with
  | nil => rfl
  | cons p rest ih =>
    simp [loadStep, jsonToInt, ih]

/-- Claim C2: for a mapping state without duplicate keys (as every real
Python dict is), saving it and loading the saved JSON value back
restores exactly the same item-to-quantity mapping (the `int()` coercion
is the identity on the saved integer values). -/
theorem C2_save_load_roundtrip (st prev : Inventory)
    (h : (st.map Prod.fst).Nodup) :
    load_data prev (FileRead.parsed (save_data st)) = st := by
  simp only [load_data, save_data]
  rw [foldl_loadStep_map_jInt]
  have := foldl_dictSet_append st [] (by simpa using h)
  simpa using this

/-- Claim C2, witness: the round trip on the concrete mapping
`{"a": 2, "b": 10}`. -/
theorem C2_save_load_roundtrip_witness :
    (([("a", (2 : Int)), ("b", 10)].map Prod.fst).Nodup) ∧
      load_data [] (FileRead.parsed (save_data [("a", 2), ("b", 10)]))
        = [("a", 2), ("b", 10)] :=
  ⟨by decide, C2_save_load_roundtrip _ _ (by decide)⟩

/-- Claim C3: for every string `item` and every `qty` that coerces to an
integer `n`, on a duplicate-free mapping: if `item` is absent,
`remove_item` leaves the mapping unchanged; if `item` is present with
quantity `v`, every other key keeps its binding, and the stored quantity
becomes `v - n` when that is positive while the key is deleted entirely
(lookup yields `none`) when `v - n ≤ 0` — so `remove_item` never leaves
the key with a non-positive quantity. -/
theorem C3_remove_item_correct (st : Inventory) (s : String) (qty : PyVal) (n : Int)
    (hq : intCoerce qty = some n) (hnd : (st.map Prod.fst).Nodup) :
    (dictGet st s = none → remove_item st (.VStr s) qty = st) ∧
    (∀ v, dictGet st s = some v →
      (∀ k, k ≠ s → dictGet (remove_item st (.VStr s) qty) k = dictGet st k) ∧
      (0 < v - n → dictGet (remove_item st (.VStr s) qty) s = some (v - n)) ∧
      (v - n ≤ 0 → dictGet (remove_item st (.VStr s) qty) s = none)) := by
  constructor
  · intro hg
    simp [remove_item, hq, hg]
  · intro v hg
    refine ⟨?_, ?_, ?_⟩
    · intro k hk
      simp only [remove_item, hq, hg]
      by_cases hle : v - n ≤ 0
      · rw [if_pos hle, dictGet_dictDel_ne _ _ _ hk, dictGet_dictSet_ne _ _ _ _ hk]
      · rw [if_neg hle, dictGet_dictSet_ne _ _ _ _ hk]
    · intro hpos
      have hle : ¬ (v - n ≤ 0) := by omega
      simp only [remove_item, hq, hg, if_neg hle]
      exact dictGet_dictSet_self st s (v - n)
    · intro hle
      simp only [remove_item, hq, hg, if_pos hle]
      exact dictGet_dictDel_self _ s (keys_nodup_dictSet st s (v - n) hnd)

/-- Claim C3, witness: removing all 5 of `"x"` from `{"x": 5}` deletes
the key entirely. -/
theorem C3_remove_item_correct_witness :
    dictGet (remove_item [("x", (5 : Int))] (PyVal.VStr "x") (PyVal.VInt 5)) "x" = none :=
  ((C3_remove_item_correct [("x", 5)] "x" (PyVal.VInt 5) 5 rfl (by decide)).2
    5 (by decide)).2.2 (by decide)

/-- Claim C7: `get_qty(item)` returns the stored quantity when `item` is
a string present in the mapping, `0` when it is a string absent from the
mapping, and `0` when `item` is not a string; it always returns
normally. -/
theorem C7_get_qty_correct (st : Inventory) (item : PyVal) :
    (∀ s v, item = .VStr s → dictGet st s = some v → get_qty st item = v) ∧
    (∀ s, item = .VStr s → dictGet st s = none → get_qty st item = 0) ∧
    (isStr item = false → get_qty st item = 0) ∧
    excOk (get_qty_exc st item) = true := by
  refine ⟨?_, ?_, ?_, rfl⟩
  · rintro s v rfl hg
    simp [get_qty, hg]
  · rintro s rfl hg
    simp [get_qty, hg]
  · intro hi
    cases item <;> first | rfl | simp [isStr] at hi

/-- Claim C7, witness: `get_qty("a")` on `{"a": 7}` is 7. -/
theorem C7_get_qty_correct_witness :
    get_qty [("a", (7 : Int))] (PyVal.VStr "a") = 7 :=
  (C7_get_qty_correct [("a", 7)] (PyVal.VStr "a")).1 "a" 7 rfl (by decide)

/-- Claim C9: an `add_item` call in which `item` is not a string or
`qty` is not numeric leaves the mapping exactly as it was and returns
normally (validation happens before the `logs` buffer is touched). -/
theorem C9_add_item_invalid_noop (st : Inventory) (item qty logs : PyVal)
    (h : isStr item = false ∨ isNum qty = false) :
    add_item st item qty = st ∧ add_item_exc st item qty logs = .ok st := by
  cases item <;> cases qty <;> simp_all [isStr, isNum, add_item, add_item_exc]

/-- Claim C9, witness: the entry-point call `add_item(123, "ten")`
leaves `{"apple": 10}` unchanged and raises nothing. -/
theorem C9_add_item_invalid_noop_witness :
    add_item [("apple", (10 : Int))] (PyVal.VInt 123) (PyVal.VStr "ten")
      = [("apple", (10 : Int))] ∧
    add_item_exc [("apple", (10 : Int))] (PyVal.VInt 123) (PyVal.VStr "ten") PyVal.VNone
      = .ok [("apple", (10 : Int))] :=
  C9_add_item_invalid_noop [("apple", 10)] (PyVal.VInt 123) (PyVal.VStr "ten")
    PyVal.VNone (Or.inl rfl)

/-- Claim C10: `get_qty`, `check_low_items`, `print_data` and
`save_data` never modify the inventory mapping — including a `save_data`
call whose write fails — because their bodies contain no assignment to
`stock_data`; the state after each such operation is exactly the state
before. -/
theorem C10_readonly_ops_frame (st : Inventory) (item thr : PyVal) (wr : Bool) :
    stepState st (.fGet item) = st ∧ stepState st (.fLow thr) = st ∧
    stepState st .fPrint = st ∧ stepState st (.fSave wr) = st :=
  ⟨rfl, rfl, rfl, rfl⟩

/-! ### Lemmas about the extended model -/

theorem mem_dictSetX {α : Type} (st : List (String × α)) (k : String) (v : α)
    (p : String × α) (hp : p ∈ dictSetX st k v) : p ∈ st ∨ p = (k, v) := by
  induction st with
  | nil =>
    simp only [dictSetX, List.mem_singleton] at hp
    exact Or.inr hp
  | cons hd tl ih =>
    obtain ⟨a, b⟩ := hd
    by_cases ha : a = k
    · simp only [dictSetX, if_pos ha] at hp
      rcases List.mem_cons.mp hp with h1 | h1
      · exact Or.inr h1
      · exact Or.inl (List.mem_cons_of_mem _ h1)
    · simp only [dictSetX, if_neg ha] at hp
      rcases List.mem_cons.mp hp with h1 | h1
      · exact Or.inl (h1 ▸ List.mem_cons_self _ _)
      · rcases ih h1 with h2 | h2
        · exact Or.inl (List.mem_cons_of_mem _ h2)
        · exact Or.inr h2

theorem mem_dictDel_dictSetX {α : Type} (st : List (String × α)) (k : String) (v : α)
    (p : String × α) (hp : p ∈ dictDelX (dictSetX st k v) k) : p ∈ st := by
  induction st with
  | nil =>
    simp [dictSetX, dictDelX] at hp
  | cons hd tl ih =>
    obtain ⟨a, b⟩ := hd
    by_cases ha : a = k
    · simp only [dictSetX, if_pos ha, dictDelX, if_pos rfl] at hp
      exact List.mem_cons_of_mem _ hp
    · simp only [dictSetX, if_neg ha, dictDelX, if_neg ha] at hp
      rcases List.mem_cons.mp hp with h1 | h1
      · exact h1 ▸ List.mem_cons_self _ _
      · exact List.mem_cons_of_mem _ (ih h1)

theorem dictGetX_mem {α : Type} (st : List (String × α)) (k : String) (v : α)
    (h : dictGetX st k = some v) : (k, v) ∈ st := by
  induction st with
  | nil => simp [dictGetX] at h
  | cons hd tl ih =>
    obtain ⟨a, b⟩ := hd
    by_cases ha : a = k
    · subst ha
      simp only [dictGetX, if_true] at h
      injection h with h
      subst h
      exact List.mem_cons_self _ _
    · simp only [dictGetX, if_neg ha] at h
      exact List.mem_cons_of_mem _ (ih h)

theorem allPosX_dictSetX (st : InventoryX) (k : String) (v : PyNum)
    (h : allPosX st) (hv : pyPos v) : allPosX (dictSetX st k v) := by
  intro p hp
  rcases mem_dictSetX st k v p hp with h1 | h1
  · exact h p h1
  · rw [h1]
    exact hv

theorem pyPos_pyAdd (a b : PyNum) (ha : pyPos a) (hb : pyPos b) : pyPos (pyAdd a b) := by
  match a, b with
  | .pInt x, .pInt y =>
    simp only [pyPos] at ha hb
    simp only [pyAdd, pyPos]
    omega
  | .pInt x, .pFloat y =>
    simp only [pyPos] at ha hb
    simp only [pyAdd, pyPos]
    have hx : (0 : ℚ) < (x : ℚ) := by exact_mod_cast ha
    exact add_pos hx hb
  | .pFloat x, .pInt y =>
    simp only [pyPos] at ha hb
    simp only [pyAdd, pyPos]
    have hy : (0 : ℚ) < (y : ℚ) := by exact_mod_cast hb
    exact add_pos ha hy
  | .pFloat x, .pFloat y =>
    simp only [pyPos] at ha hb
    simp only [pyAdd, pyPos]
    exact add_pos ha hb

theorem pyPos_of_not_leZero (w : PyNum) (h : pyLeZero w = false) : pyPos w := by
  match w with
  | .pInt a =>
    simp only [pyLeZero, decide_eq_false_iff_not, not_le] at h
    simpa [pyPos] using h
  | .pFloat a =>
    simp only [pyLeZero, decide_eq_false_iff_not, not_le] at h
    simpa [pyPos] using h

theorem allPosX_add_itemX (st : InventoryX) (item qty : PyValX)
    (h : allPosX st) (hop : opOKX (.gAdd item qty) = true) :
    allPosX (add_itemX st item qty) := by
  match item, qty with
  | .XStr s, .XInt n =>
    have hn : 0 < n := by simpa [opOKX] using hop
    simp only [add_itemX]
    rcases hg : dictGetX st s with _ | v
    · simp only [hg, Option.getD_none]
      refine allPosX_dictSetX st s _ h ?_
      simp only [pyAdd, pyPos]
      omega
    · simp only [hg, Option.getD_some]
      have hv : pyPos v := h (s, v) (dictGetX_mem st s v hg)
      exact allPosX_dictSetX st s _ h (pyPos_pyAdd v _ hv (by simpa [pyPos] using hn))
  | .XStr s, .XFloat q =>
    have hq : 0 < q := by simpa [opOKX] using hop
    simp only [add_itemX]
    rcases hg : dictGetX st s with _ | v
    · simp only [hg, Option.getD_none]
      refine allPosX_dictSetX st s _ h ?_
      simp only [pyAdd, pyPos, Int.cast_zero, zero_add]
      exact hq
    · simp only [hg, Option.getD_some]
      have hv : pyPos v := h (s, v) (dictGetX_mem st s v hg)
      exact allPosX_dictSetX st s _ h (pyPos_pyAdd v _ hv (by simpa [pyPos] using hq))
  | .XStr _, .XStr _ => simpa [add_itemX] using h
  | .XStr _, .XNone => simpa [add_itemX] using h
  | .XStr _, .XList _ => simpa [add_itemX] using h
  | .XInt _, _ => simpa [add_itemX] using h
  | .XFloat _, _ => simpa [add_itemX] using h
  | .XNone, _ => simpa [add_itemX] using h
  | .XList _, _ => simpa [add_itemX] using h

theorem allPosX_remove_itemX (st : InventoryX) (item qty : PyValX)
    (h : allPosX st) : allPosX (remove_itemX st item qty) := by
  match item with
  | .XStr s =>
    simp only [remove_itemX]
    rcases intCoerceX qty with _ | n
    · exact h
    · rcases hg : dictGetX st s with _ | v
      · exact h
      · by_cases hle : pyLeZero (pySub v n)
        · simp only [if_pos hle]
          intro p hp
          exact h p (mem_dictDel_dictSetX st s _ p hp)
        · simp only [if_neg hle]
          refine allPosX_dictSetX st s _ h ?_
          exact pyPos_of_not_leZero _ (by simpa using hle)
  | .XInt _ => simpa [remove_itemX] using h
  | .XFloat _ => simpa [remove_itemX] using h
  | .XNone => simpa [remove_itemX] using h
  | .XList _ => simpa [remove_itemX] using h

theorem allPosX_toX (st : Inventory) (h : allPos st) : allPosX (toX st) := by
  intro p hp
  simp only [toX, List.mem_map] at hp
  obtain ⟨q, hq, rfl⟩ := hp
  simpa [pyPos] using h q hq

theorem allPosX_load_dataX (st : InventoryX) (f : FileRead)
    (hop : opOKX (.gLoad f) = true) : allPosX (load_dataX st f) :=
  allPosX_toX _ (allPos_load_data [] f hop)

theorem allPosX_stepStateX (st : InventoryX) (op : OpFX)
    (h : allPosX st) (hop : opOKX op = true) : allPosX (stepStateX st op) := by
  match op with
  | .gAdd item qty => exact allPosX_add_itemX st item qty h hop
  | .gRemove item qty => exact allPosX_remove_itemX st item qty h
  | .gLoad f => exact allPosX_load_dataX st f hop

theorem allPosX_runOpsX (st : InventoryX) (ops : List OpFX)
    (h : allPosX st) (hops : ∀ op ∈ ops, opOKX op = true) : allPosX (runOpsX st ops) := by
  induction ops generalizing st with
  | nil => simpa [runOpsX] using h
  | cons op rest ih =>
    simp only [runOpsX, List.foldl_cons]
    exact ih (stepStateX st op)
      (allPosX_stepStateX st op h (hops op (List.mem_cons_self _ _)))
      (fun op' hop' => hops op' (List.mem_cons_of_mem _ hop'))

theorem dictGetX_toX (st : Inventory) (k : String) :
    dictGetX (toX st) k = (dictGet st k).map PyNum.pInt := by
  induction st with
  | nil => simp [toX, dictGetX, dictGet]
  | cons hd tl ih =>
    obtain ⟨a, b⟩ := hd
    simp only [toX, List.map_cons] at ih ⊢
    by_cases ha : a = k <;> simp [dictGetX, dictGet, ha, ih]

theorem dictSetX_toX (st : Inventory) (k : String) (v : Int) :
    dictSetX (toX st) k (.pInt v) = toX (dictSet st k v) := by
  induction st with
  | nil => simp [toX, dictSetX, dictSet]
  | cons hd tl ih =>
    obtain ⟨a, b⟩ := hd
    simp only [toX, List.map_cons] at ih ⊢
    by_cases ha : a = k <;> simp [dictSetX, dictSet, ha, ih]

theorem add_itemX_toX (st : Inventory) (s : String) (n : Int) :
    add_itemX (toX st) (.XStr s) (.XInt n) = toX (add_item st (.VStr s) (.VInt n)) := by
  simp only [add_itemX, add_item, dictGetX_toX]
  rcases hg : dictGet st s with _ | v
  · simp only [hg, Option.map_none', Option.getD_none, pyAdd]
    exact dictSetX_toX st s (0 + n)
  · simp only [hg, Option.map_some', Option.getD_some, pyAdd]
    exact dictSetX_toX st s (v + n)

theorem get_qtyX_toX (st : Inventory) (s : String) :
    get_qtyX (toX st) (.XStr s) = get_qty st (.VStr s) := by
  simp only [get_qtyX, get_qty, dictGetX_toX]
  rcases hg : dictGet st s with _ | v <;> simp [hg]

/-- Claim C1, counterexample: the sequence consisting of the single call
`add_item("x", 0)` is a valid sequence of operations starting from the
empty inventory, yet it leaves the key `"x"` in the mapping with
quantity `0`, so the invariant "all stored quantities are > 0" is not
preserved by every operation (a negative int or float quantity likewise
stores a non-positive value). -/
theorem C1_zero_qty_add_breaks_invariant :
    ¬ allPosX (runOpsX [] [OpFX.gAdd (PyValX.XStr "x") (PyValX.XInt 0)]) := by
  decide

/-- Claim C1, amended: for every sequence of `add_item`, `remove_item`
and `load_data` calls starting from the empty inventory, in which every
`add_item` call with a numeric quantity — int or float, the values that
pass the `isinstance(qty, (int, float))` validation — has quantity
strictly positive and every `load_data` call reads a file whose
integer-coercible values are all strictly positive, every key present
in the mapping has a quantity strictly greater than 0 (`remove_item`
calls and calls rejected by validation need no side condition). -/
theorem C1_amended_invariant_preserved (ops : List OpFX)
    (h : ∀ op ∈ ops, opOKX op = true) : allPosX (runOpsX [] ops) :=
  allPosX_runOpsX [] ops (by intro p hp; simp at hp) h

/-- Claim C1, witness: a positive integer add, a positive float add and
a partial removal keep all quantities positive. -/
theorem C1_amended_invariant_preserved_witness :
    (∀ op ∈ [OpFX.gAdd (PyValX.XStr "x") (PyValX.XInt 5),
             OpFX.gAdd (PyValX.XStr "x") (PyValX.XFloat (1 / 2)),
             OpFX.gRemove (PyValX.XStr "x") (PyValX.XInt 2)], opOKX op = true) ∧
    allPosX (runOpsX [] [OpFX.gAdd (PyValX.XStr "x") (PyValX.XInt 5),
                         OpFX.gAdd (PyValX.XStr "x") (PyValX.XFloat (1 / 2)),
                         OpFX.gRemove (PyValX.XStr "x") (PyValX.XInt 2)]) := by
  have hops : ∀ op ∈ [OpFX.gAdd (PyValX.XStr "x") (PyValX.XInt 5),
      OpFX.gAdd (PyValX.XStr "x") (PyValX.XFloat (1 / 2)),
      OpFX.gRemove (PyValX.XStr "x") (PyValX.XInt 2)], opOKX op = true := by
    intro op hop
    simp only [List.mem_cons, List.not_mem_nil, or_false] at hop
    rcases hop with rfl | rfl | rfl
    · rfl
    · simp only [opOKX, decide_eq_true_eq]
      norm_num
    · rfl
  exact ⟨hops, C1_amended_invariant_preserved _ hops⟩

/-- Truncation toward zero of a rational in `[0, 1)` is zero. -/
theorem truncQ_eq_zero (q : ℚ) (h0 : 0 ≤ q) (h1 : q < 1) : truncQ q = 0 := by
  unfold truncQ
  have hnum : 0 ≤ q.num := Rat.num_nonneg.mpr h0
  have hden : (0 : Int) ≤ (q.den : Int) := Int.ofNat_nonneg _
  have hlt : q.num < (q.den : Int) := Rat.lt_one_iff_num_lt_denom.mp h1
  rw [Int.tdiv_eq_ediv hnum hden]
  exact Int.ediv_eq_zero_of_lt hnum hlt

/-- Claim C4, counterexample: `qty = 0.5` is numeric (line 29 accepts
floats) and nonnegative, but from the empty mapping `add_item("x", 0.5)`
stores `0.5` and `get_qty("x")` truncates it to `int(0.5) = 0`, which
differs from the pre-call quantity `0` plus `0.5`; so the claim fails
for numeric non-integer quantities. -/
theorem C4_float_truncation_counterexample :
    ¬ ((get_qtyX (add_itemX [] (.XStr "x") (.XFloat (1 / 2))) (.XStr "x") : ℚ)
        = (get_qtyX [] (.XStr "x") : ℚ) + (1 / 2 : ℚ)) := by
  have hs : add_itemX [] (.XStr "x") (.XFloat (1 / 2))
      = [("x", PyNum.pFloat (((0 : Int) : ℚ) + 1 / 2))] := rfl
  have hg : get_qtyX [("x", PyNum.pFloat (((0 : Int) : ℚ) + 1 / 2))] (.XStr "x")
      = truncQ (((0 : Int) : ℚ) + 1 / 2) := rfl
  rw [hs, hg, show (((0 : Int) : ℚ) + 1 / 2) = 1 / 2 by norm_num,
    truncQ_eq_zero (1 / 2) (by norm_num) (by norm_num)]
  norm_num [get_qtyX, dictGetX]

/-- Claim C4, amended: for every integer-valued starting mapping, every
string `item` and every integer `qty ≥ 0`, the quantity `get_qty`
reports after `add_item(item, qty)` equals the quantity it reported
before plus `qty` (stated in the extended model, which contains the
float calls excluded by the amendment). -/
theorem C4_add_then_get_int (st : Inventory) (s : String) (n : Int) (_h : 0 ≤ n) :
    get_qtyX (add_itemX (toX st) (.XStr s) (.XInt n)) (.XStr s)
      = get_qtyX (toX st) (.XStr s) + n := by
  rw [add_itemX_toX, get_qtyX_toX, get_qtyX_toX]
  simp [get_qty, add_item, dictGet_dictSet_self]

/-- Claim C4, witness: adding 3 to `"a"` in `{"a": 2}` takes `get_qty`
from 2 to 5. -/
theorem C4_add_then_get_int_witness :
    (0 : Int) ≤ 3 ∧
      get_qtyX (add_itemX (toX [("a", (2 : Int))]) (PyValX.XStr "a") (PyValX.XInt 3))
          (PyValX.XStr "a")
        = get_qtyX (toX [("a", (2 : Int))]) (PyValX.XStr "a") + 3 :=
  ⟨by decide, C4_add_then_get_int [("a", 2)] "a" 3 (by decide)⟩
